import Mathlib

/-!
Verification of the `bspline` B-spline curve library (`src/lib.rs`).

The scalar parameter type `F` of the library is modelled by `ℚ` (an ordered
field with decidable comparisons); a possibly-NaN input scalar, as accepted by
the constructor before sorting, is modelled by `Option ℚ` with `none` playing
the role of NaN (the one non-comparable value).  Rust panics — out-of-bounds
slice indexing, `usize` underflow (debug), the out-of-domain `debug_assert`,
the `is_finite` `debug_assert`, and the `partial_cmp(..).unwrap()` in the
knot sort — are modelled as `Except` errors carrying the error
taxonomy of the spec.
-/

namespace BsplineVerif

/-- Error taxonomy from the spec (§7); `IndexOutOfBounds` models the Rust
panics from slice indexing or `usize` underflow. -/
inductive SplineError where
  | InvalidControlPointCount : SplineError
  | InvalidKnotCount : ℕ → ℕ → SplineError
  | InvalidKnotValue : SplineError
  | ParameterOutOfDomain : SplineError
  | DegenerateKnotSpan : SplineError
  | IndexOutOfBounds : SplineError
deriving DecidableEq

/-- Checked list indexing: models Rust slice indexing `data[i]`, which panics
when out of bounds. -/
def idxE {α : Type} (l : List α) (n : ℕ) : Except SplineError α :=
  match l[n]? with
  | some v => .ok v
  | none => .error .IndexOutOfBounds

/-- Checked subtraction: models Rust `usize` subtraction, which panics on
underflow in debug builds. -/
def subE (a b : ℕ) : Except SplineError ℕ :=
  if b ≤ a then .ok (a - b) else .error .IndexOutOfBounds

/-- The `Interpolate` trait: linear blend of two control points by a weight. -/
class Interpolate (T : Type) where
  interpolate : T → T → ℚ → T

/-- The blanket implementation for scalar types:
`self * (1 - t) + other * t` (from `impl Interpolate for T`). -/
instance : Interpolate ℚ := ⟨fun a b t => a * (1 - t) + b * t⟩

/-- The `BSpline` struct: degree, control points and the knot vector. -/
structure BSpline (T : Type) where
  degree : ℕ
  control_points : List T
  knots : List ℚ

/-- The loop of `upper_bounds` (`lib.rs:169-178`): binary search state is the
pair `(first, count)`; per iteration either `first := it + 1, count -= step + 1`
or `count := step` where `step = count / 2` and `it = first + step`. -/
def upperBoundsLoop (data : List ℚ) (value : ℚ) (first count : ℕ) : ℕ :=
  if 0 < count then
    let step := count / 2
    let it := first + step
    if ¬ value < data.getD it 0 then
      upperBoundsLoop data value (it + 1) (count - step - 1)
    else
      upperBoundsLoop data value first step
  else first
termination_by count
decreasing_by
  · omega
  · omega

/-- `upper_bounds` (`lib.rs:165-185`): index of the first element greater than
`value`, or `none` when no element exceeds it. -/
def upper_bounds (data : List ℚ) (value : ℚ) : Option ℕ :=
  let first := upperBoundsLoop data value 0 data.length
  if first = data.length then none else some first

/-- The knot-span selection `match` inside `point` (`lib.rs:114-120`),
with the guards tested in source order. -/
def spanIndex (knots : List ℚ) (degree : ℕ) (t : ℚ) : ℕ :=
  match upper_bounds knots t with
  | some x =>
    if x = 0 then degree
    else if knots.length - degree - 1 ≤ x then knots.length - degree - 1
    else x
  | none => knots.length - degree - 1

/-- `knot_domain` (`lib.rs:135-137`):
`(knots[degree], knots[knots.len() - 1 - degree])`. -/
def knot_domain {T : Type} (c : BSpline T) : ℚ × ℚ :=
  (c.knots.getD c.degree 0, c.knots.getD (c.knots.length - 1 - c.degree) 0)

/-- The seeding loop of `de_boor_iterative` (`lib.rs:145-148`): starting at
position `j` with `n` iterations left, push
`control_points[j + i_start - degree - 1]` each round. -/
def seedLoop {T : Type} (cps : List T) (degree i_start : ℕ) :
    ℕ → ℕ → Except SplineError (List T)
  | _, 0 => .ok []
  | j, n + 1 => do
    let p ← subE (j + i_start) (degree + 1)
    let v ← idxE cps p
    let rest ← seedLoop cps degree i_start (j + 1) n
    .ok (v :: rest)

/-- The seed of the de Boor buffer: `for j in 0..=degree`, i.e. `degree + 1`
rounds of `seedLoop` from `j = 0`. -/
def de_boor_seed {T : Type} (cps : List T) (degree i_start : ℕ) :
    Except SplineError (List T) :=
  seedLoop cps degree i_start 0 (degree + 1)

/-- One level of the de Boor collapse (`lib.rs:151-156`), with `k = lvl + 1`
and `cnt` the number of remaining inner-loop iterations
(`for j in 0..self.degree - lvl`): at position `j`, update
`tmp[j] = interpolate(tmp[j], tmp[j+1], alpha)` with
`alpha = (t - knots[i-1]) / (knots[i + degree - k] - knots[i-1])` where
`i = j + k + i_start - degree`.  The update reads only the old `tmp[j]` and
`tmp[j+1]`, so the buffer is carried as the list of its entries from `j`
onward, each blend consuming the head; the untouched tail of the buffer is
kept as is.  A zero denominator makes `alpha` non-finite and trips the
`debug_assert!(alpha.is_finite())`, modelled as `DegenerateKnotSpan`. -/
def rowBlend {T : Type} [Interpolate T] (knots : List ℚ) (t : ℚ)
    (degree k i_start : ℕ) : ℕ → ℕ → List T → Except SplineError (List T)
  | 0, _, tmp => .ok tmp
  | cnt + 1, j, a :: b :: rest => do
    let i ← subE (j + k + i_start) degree
    let im ← subE i 1
    let lo ← idxE knots im
    let hi ← idxE knots (i + degree - k)
    if hi - lo = 0 then .error .DegenerateKnotSpan
    else
      let alpha := (t - lo) / (hi - lo)
      let tail ← rowBlend knots t degree k i_start cnt (j + 1) (b :: rest)
      .ok (Interpolate.interpolate a b alpha :: tail)
  | _ + 1, _, _ => .error .IndexOutOfBounds

/-- The outer level loop of `de_boor_iterative` (`lib.rs:149-157`):
`for lvl in 0..degree`, collapse one level with `degree - lvl` blends. -/
def de_boor_levels {T : Type} [Interpolate T] (knots : List ℚ) (t : ℚ)
    (degree i_start : ℕ) (lvl : ℕ) (tmp : List T) :
    Except SplineError (List T) :=
  if lvl < degree then do
    let tmp2 ← rowBlend knots t degree (lvl + 1) i_start (degree - lvl) 0 tmp
    de_boor_levels knots t degree i_start (lvl + 1) tmp2
  else .ok tmp
termination_by degree - lvl

/-- `de_boor_iterative` (`lib.rs:143-159`): seed the working buffer, run the
`degree` collapsing levels, return `tmp[0]`. -/
def de_boor_iterative {T : Type} [Interpolate T] (c : BSpline T) (t : ℚ)
    (i_start : ℕ) : Except SplineError T := do
  let tmp ← de_boor_seed c.control_points c.degree i_start
  let res ← de_boor_levels c.knots t c.degree i_start 0 tmp
  idxE res 0

/-- `point` (`lib.rs:110-122`): assert `t` in the knot domain
(`ParameterOutOfDomain` on violation), pick the knot span, run de Boor. -/
def point {T : Type} [Interpolate T] (c : BSpline T) (t : ℚ) :
    Except SplineError T :=
  if (knot_domain c).1 ≤ t ∧ t ≤ (knot_domain c).2 then
    de_boor_iterative c t (spanIndex c.knots c.degree t)
  else .error .ParameterOutOfDomain

/-- The `knots.sort_by(|a, b| a.partial_cmp(b).unwrap())` step of `new`
(`lib.rs:104`): sorting with a comparator that unwraps `partial_cmp` panics
as soon as a non-comparable value (NaN, modelled `none`) is compared, which
happens whenever one is present (every element of a slice of length ≥ 2
takes part in at least one comparison); otherwise the knots are sorted
ascending.  `checkComparable` extracts the comparable values, refusing the
list when a `none` is present. -/
def checkComparable : List (Option ℚ) → Option (List ℚ)
  | [] => some []
  | none :: _ => none
  | some q :: rest => (checkComparable rest).map (q :: ·)

def sortKnots (knots : List (Option ℚ)) : Except SplineError (List ℚ) :=
  match checkComparable knots with
  | none => .error .InvalidKnotValue
  | some ks => .ok (ks.mergeSort (fun a b => a ≤ b))

/-- `new` (`lib.rs:96-106`): reject too few control points, then a wrong knot
count (reporting got/expected), then sort the knots. -/
def new {T : Type} (degree : ℕ) (control_points : List T)
    (knots : List (Option ℚ)) : Except SplineError (BSpline T) :=
  if control_points.length ≤ degree then
    .error .InvalidControlPointCount
  else if knots.length ≠ control_points.length + degree + 1 then
    .error (.InvalidKnotCount knots.length (control_points.length + degree + 1))
  else do
    let ks ← sortKnots knots
    .ok ⟨degree, control_points, ks⟩

/-- The accessor `control_points` (`lib.rs:124-126`): the stored control
points, in order. -/
def control_points_seq {T : Type} (c : BSpline T) : List T :=
  c.control_points

/-- The accessor `knots` (`lib.rs:128-130`): the stored knots, in order. -/
def knots_seq {T : Type} (c : BSpline T) : List ℚ :=
  c.knots

/-- The data-model invariants of §3 of the spec. -/
def Invariant {T : Type} (c : BSpline T) : Prop :=
  c.degree < c.control_points.length ∧
  c.knots.length = c.control_points.length + c.degree + 1 ∧
  List.Sorted (· ≤ ·) c.knots

instance {T : Type} (c : BSpline T) : Decidable (Invariant c) := by
  unfold Invariant
  exact inferInstance

/-- The blend-factor denominator `knots[i + degree - k] - knots[i - 1]` at
inner position `j` of the level with `k = lvl + 1` (`lib.rs:153`). -/
def blendDenom (knots : List ℚ) (degree k i_start j : ℕ) : ℚ :=
  knots.getD (j + k + i_start - degree + degree - k) 0 -
    knots.getD (j + k + i_start - degree - 1) 0

/-- Whether some blend of the de Boor evaluation started at `i_start` has a
zero denominator (a degenerate knot span). -/
def hasDegenerateSpan (knots : List ℚ) (degree i_start : ℕ) : Bool :=
  (List.range degree).any fun lvl =>
    (List.range (degree - lvl)).any fun j =>
      decide (blendDenom knots degree (lvl + 1) i_start j = 0)

/-! ### Helper lemmas -/

lemma sorted_getD_mono {l : List ℚ} (hs : List.Sorted (· ≤ ·) l) {i j : ℕ}
    (hij : i ≤ j) (hj : j < l.length) : l.getD i 0 ≤ l.getD j 0 := by
  rcases Nat.eq_or_lt_of_le hij with rfl | hlt
  · exact le_refl _
  · have hi : i < l.length := lt_trans hlt hj
    rw [List.getD_eq_getElem _ _ hi, List.getD_eq_getElem _ _ hj]
    exact List.pairwise_iff_getElem.mp hs i j hi hj hlt

/-- Loop invariant of the `upper_bounds` binary search: if everything strictly
below `first` is `≤ v` and everything at or above `first + count` exceeds `v`,
the loop lands on the boundary between the two regions. -/
lemma upperBoundsLoop_spec (data : List ℚ) (v : ℚ) :
    ∀ count first,
      List.Sorted (· ≤ ·) data →
      first + count ≤ data.length →
      (∀ j, j < first → data.getD j 0 ≤ v) →
      (∀ j, first + count ≤ j → j < data.length → v < data.getD j 0) →
      (∀ j, j < upperBoundsLoop data v first count → data.getD j 0 ≤ v) ∧
      (∀ j, upperBoundsLoop data v first count ≤ j → j < data.length →
        v < data.getD j 0) ∧
      first ≤ upperBoundsLoop data v first count ∧
      upperBoundsLoop data v first count ≤ data.length := by
  intro count
  induction count using Nat.strong_induction_on with
  | _ count ih =>
    intro first hs hlen hlo hhi
    rw [upperBoundsLoop]
    by_cases hc : 0 < count
    · simp only [if_pos hc]
      by_cases hv : ¬ v < data.getD (first + count / 2) 0
      · simp only [if_pos hv]
        have hstep : count / 2 < count := Nat.div_lt_self hc (by omega)
        obtain ⟨h1, h2, h3, h4⟩ :=
          ih (count - count / 2 - 1) (by omega) (first + count / 2 + 1) hs
            (by omega)
            (fun j hj => by
              rcases Nat.lt_or_ge j first with h | h
              · exact hlo j h
              · have hit : first + count / 2 < data.length := by omega
                exact le_trans (sorted_getD_mono hs (by omega) hit)
                  (not_lt.mp hv))
            (fun j hj hjl => hhi j (by omega) hjl)
        exact ⟨h1, h2, by omega, h4⟩
      · simp only [if_neg hv]
        push_neg at hv
        have hstep : count / 2 < count := Nat.div_lt_self hc (by omega)
        refine ih (count / 2) hstep first hs (by omega) hlo ?_
        intro j hj hjl
        exact lt_of_lt_of_le hv (sorted_getD_mono hs (by omega) hjl)
    · simp only [if_neg hc]
      have hc0 : count = 0 := by omega
      subst hc0
      exact ⟨hlo, fun j hj hjl => hhi j (by omega) hjl, le_refl _, by omega⟩

/-- Full characterization of `upper_bounds` on a sorted slice. -/
lemma upper_bounds_spec (data : List ℚ) (v : ℚ)
    (hs : List.Sorted (· ≤ ·) data) :
    (upper_bounds data v = none → ∀ j, j < data.length → data.getD j 0 ≤ v) ∧
    (∀ x, upper_bounds data v = some x →
      x < data.length ∧ v < data.getD x 0 ∧ ∀ j, j < x → data.getD j 0 ≤ v) := by
  have h := upperBoundsLoop_spec data v data.length 0 hs (by omega)
    (by omega) (by omega)
  set r := upperBoundsLoop data v 0 data.length with hr
  constructor
  · intro hnone j hj
    have he : r = data.length := by
      by_contra hne
      simp only [upper_bounds, ← hr, if_neg hne] at hnone
      exact Option.noConfusion hnone
    exact h.1 j (by omega)
  · intro x hx
    have hne : r ≠ data.length := by
      intro he
      simp only [upper_bounds, ← hr, if_pos he] at hx
      exact Option.noConfusion hx
    have hxr : r = x := by
      simpa only [upper_bounds, ← hr, if_neg hne, Option.some.injEq] using hx
    subst hxr
    have hlt : r < data.length := lt_of_le_of_ne h.2.2.2 hne
    exact ⟨hlt, h.2.1 _ (le_refl _) hlt, h.1⟩

/-! ### C3: upper-bound binary search correctness -/

/-- C3: on a slice sorted in non-decreasing order, `upper_bounds data v`
returns `some x` with `x` the least index whose element exceeds `v` whenever
some element exceeds `v`, and `none` when no element does. -/
theorem upper_bounds_correct (data : List ℚ) (v : ℚ)
    (hs : List.Sorted (· ≤ ·) data) :
    ((∃ i, i < data.length ∧ v < data.getD i 0) →
      ∃ x, upper_bounds data v = some x ∧ x < data.length ∧
        v < data.getD x 0 ∧ ∀ j, j < x → ¬ v < data.getD j 0) ∧
    ((∀ i, i < data.length → ¬ v < data.getD i 0) →
      upper_bounds data v = none) := by
  obtain ⟨hnone, hsome⟩ := upper_bounds_spec data v hs
  constructor
  · rintro ⟨i, hi, hvi⟩
    match hub : upper_bounds data v with
    | none => exact absurd hvi (not_lt.mpr (hnone hub i hi))
    | some x =>
      obtain ⟨hx, hvx, hleast⟩ := hsome x hub
      exact ⟨x, rfl, hx, hvx, fun j hj => not_lt.mpr (hleast j hj)⟩
  · intro hall
    match hub : upper_bounds data v with
    | none => rfl
    | some x =>
      obtain ⟨hx, hvx, _⟩ := hsome x hub
      exact absurd hvx (hall x hx)

/-- Witness for C3 at `data = [0, 1]`, `v = 0`. -/
theorem upper_bounds_correct_witness :
    List.Sorted (· ≤ ·) [(0 : ℚ), 1] ∧
    (((∃ i, i < [(0 : ℚ), 1].length ∧ (0 : ℚ) < [(0 : ℚ), 1].getD i 0) →
      ∃ x, upper_bounds [(0 : ℚ), 1] 0 = some x ∧ x < [(0 : ℚ), 1].length ∧
        (0 : ℚ) < [(0 : ℚ), 1].getD x 0 ∧
        ∀ j, j < x → ¬ (0 : ℚ) < [(0 : ℚ), 1].getD j 0) ∧
    ((∀ i, i < [(0 : ℚ), 1].length → ¬ (0 : ℚ) < [(0 : ℚ), 1].getD i 0) →
      upper_bounds [(0 : ℚ), 1] 0 = none)) :=
  ⟨by decide, upper_bounds_correct [(0 : ℚ), 1] 0 (by decide)⟩

/-! ### C10: the binary-search loop variable strictly decreases -/

/-- C10: when `count > 0`, both candidate next values of the loop variable
(`step = count / 2` in the not-less branch target of `count`, and
`count - step - 1` in the advance branch) are strictly below `count`, and
`upperBoundsLoop` satisfies exactly this recurrence, so the loop is a total
function by well-founded recursion on `count`. -/
theorem upperBoundsLoop_decreases (data : List ℚ) (v : ℚ)
    (first count : ℕ) (h : 0 < count) :
    (count / 2 < count ∧ count - count / 2 - 1 < count) ∧
    upperBoundsLoop data v first count =
      (if ¬ v < data.getD (first + count / 2) 0 then
        upperBoundsLoop data v (first + count / 2 + 1) (count - count / 2 - 1)
      else upperBoundsLoop data v first (count / 2)) := by
  refine ⟨⟨Nat.div_lt_self h (by omega), by omega⟩, ?_⟩
  conv_lhs => rw [upperBoundsLoop]
  simp only [if_pos h]

/-- Witness for C10 at `data = [0, 1]`, `v = 1/2`, `first = 0`, `count = 2`. -/
theorem upperBoundsLoop_decreases_witness :
    0 < 2 ∧
    ((2 / 2 < 2 ∧ 2 - 2 / 2 - 1 < 2) ∧
    upperBoundsLoop [(0 : ℚ), 1] (1 / 2) 0 2 =
      (if ¬ (1 / 2 : ℚ) < [(0 : ℚ), 1].getD (0 + 2 / 2) 0 then
        upperBoundsLoop [(0 : ℚ), 1] (1 / 2) (0 + 2 / 2 + 1) (2 - 2 / 2 - 1)
      else upperBoundsLoop [(0 : ℚ), 1] (1 / 2) 0 (2 / 2))) :=
  ⟨by decide, upperBoundsLoop_decreases [(0 : ℚ), 1] (1 / 2) 0 2 (by decide)⟩

/-! ### Construction lemmas -/

lemma checkComparable_mem_none {l : List (Option ℚ)} (h : none ∈ l) :
    checkComparable l = none := by
  induction l with
  | nil => cases h
  | cons a l ih =>
    cases a with
    | none => rfl
    | some q =>
      have hmem : none ∈ l := by
        rcases List.mem_cons.mp h with hh | hh
        · exact absurd hh (by simp)
        · exact hh
      simp [checkComparable, ih hmem]

lemma checkComparable_some_length :
    ∀ {l : List (Option ℚ)} {l' : List ℚ},
      checkComparable l = some l' → l'.length = l.length := by
  intro l
  induction l with
  | nil =>
    intro l' h
    simp only [checkComparable, Option.some.injEq] at h
    subst h
    rfl
  | cons a l ih =>
    intro l' h
    cases a with
    | none => exact Option.noConfusion h
    | some q =>
      simp only [checkComparable, Option.map_eq_some'] at h
      obtain ⟨rest, hrest, rfl⟩ := h
      simp [ih hrest]

lemma checkComparable_not_mem_none {l : List (Option ℚ)} (h : ¬ none ∈ l) :
    ∃ l', checkComparable l = some l' ∧ l'.length = l.length := by
  induction l with
  | nil => exact ⟨[], rfl, rfl⟩
  | cons a l ih =>
    obtain ⟨l', hl', hlen⟩ := ih (fun hm => h (List.mem_cons_of_mem a hm))
    cases a with
    | none => exact absurd (List.mem_cons_self _ _) h
    | some q => exact ⟨q :: l', by simp [checkComparable, hl'], by simp [hlen]⟩

/-! ### C5: constructor validation order and failure modes -/

/-- C5: `new` validates in order — control-point count first
(`InvalidControlPointCount`), then knot count (`InvalidKnotCount` with got
and expected), then comparability of the knots while sorting
(`InvalidKnotValue` when a NaN, modelled `none`, is present); only when all
pass is a curve produced. -/
theorem new_validates {T : Type} (degree : ℕ) (cps : List T)
    (knots : List (Option ℚ)) :
    (cps.length ≤ degree →
      new degree cps knots = .error .InvalidControlPointCount) ∧
    (degree < cps.length → knots.length ≠ cps.length + degree + 1 →
      new degree cps knots =
        .error (.InvalidKnotCount knots.length (cps.length + degree + 1))) ∧
    (degree < cps.length → knots.length = cps.length + degree + 1 →
      none ∈ knots → new degree cps knots = .error .InvalidKnotValue) ∧
    (degree < cps.length → knots.length = cps.length + degree + 1 →
      ¬ none ∈ knots → ∃ c, new degree cps knots = .ok c) := by
  refine ⟨fun h1 => ?_, fun h1 h2 => ?_, fun h1 h2 h3 => ?_, fun h1 h2 h3 => ?_⟩
  · simp [new, if_pos h1]
  · simp [new, if_neg (not_le.mpr h1), if_neg h2, h2]
  · have hsk : sortKnots knots = .error .InvalidKnotValue := by
      simp [sortKnots, checkComparable_mem_none h3]
    simp only [new, if_neg (not_le.mpr h1), if_neg (by omega :
      ¬ knots.length ≠ cps.length + degree + 1), hsk]
    rfl
  · obtain ⟨l', hl', _⟩ := checkComparable_not_mem_none h3
    refine ⟨⟨degree, cps, l'.mergeSort (fun a b => a ≤ b)⟩, ?_⟩
    have hsk : sortKnots knots = .ok (l'.mergeSort (fun a b => a ≤ b)) := by
      simp [sortKnots, hl']
    simp only [new, if_neg (not_le.mpr h1), if_neg (by omega :
      ¬ knots.length ≠ cps.length + degree + 1), hsk]
    rfl

/-- Witness for C5 at `degree = 1`, two control points, knots `[0,0,1,1]`. -/
theorem new_validates_witness :
    (([(0 : ℚ), 1].length ≤ 1 →
      new 1 [(0 : ℚ), 1] [some 0, some 0, some 1, some 1] =
        .error .InvalidControlPointCount) ∧
    (1 < [(0 : ℚ), 1].length →
      [some (0 : ℚ), some 0, some 1, some 1].length ≠ [(0 : ℚ), 1].length + 1 + 1 →
      new 1 [(0 : ℚ), 1] [some 0, some 0, some 1, some 1] =
        .error (.InvalidKnotCount [some (0 : ℚ), some 0, some 1, some 1].length
          ([(0 : ℚ), 1].length + 1 + 1))) ∧
    (1 < [(0 : ℚ), 1].length →
      [some (0 : ℚ), some 0, some 1, some 1].length = [(0 : ℚ), 1].length + 1 + 1 →
      none ∈ [some (0 : ℚ), some 0, some 1, some 1] →
      new 1 [(0 : ℚ), 1] [some 0, some 0, some 1, some 1] =
        .error .InvalidKnotValue) ∧
    (1 < [(0 : ℚ), 1].length →
      [some (0 : ℚ), some 0, some 1, some 1].length = [(0 : ℚ), 1].length + 1 + 1 →
      ¬ none ∈ [some (0 : ℚ), some 0, some 1, some 1] →
      ∃ c, new 1 [(0 : ℚ), 1] [some 0, some 0, some 1, some 1] = .ok c)) :=
  new_validates 1 [(0 : ℚ), 1] [some 0, some 0, some 1, some 1]

/-! ### C7: constructed curves satisfy the data-model invariants -/

/-- C7: every curve `new` returns satisfies
`control_points.len() > degree`, `knots.len() == control_points.len() +
degree + 1`, and sorted-ascending knots; all later operations (`point`,
`knot_domain`, the accessors) are read-only functions of the curve value, so
the invariants hold for the lifetime of the curve. -/
theorem new_invariant {T : Type} (degree : ℕ) (cps : List T)
    (knots : List (Option ℚ)) (c : BSpline T)
    (h : new degree cps knots = .ok c) :
    Invariant c ∧ c.degree = degree ∧ control_points_seq c = cps := by
  by_cases h1 : cps.length ≤ degree
  · simp [new, if_pos h1] at h
  by_cases h2 : knots.length = cps.length + degree + 1
  · rcases hm : checkComparable knots with _ | l'
    · have hsk : sortKnots knots = .error .InvalidKnotValue := by
        simp [sortKnots, hm]
      simp only [new, if_neg h1, if_neg (by omega :
        ¬ knots.length ≠ cps.length + degree + 1), hsk] at h
      exact Except.noConfusion h
    · have hlen : l'.length = knots.length := checkComparable_some_length hm
      have hsk : sortKnots knots = .ok (l'.mergeSort (fun a b => a ≤ b)) := by
        simp [sortKnots, hm]
      simp only [new, if_neg h1, if_neg (by omega :
        ¬ knots.length ≠ cps.length + degree + 1), hsk] at h
      have h' : Except.ok (ε := SplineError)
          (⟨degree, cps, l'.mergeSort (fun a b => a ≤ b)⟩ : BSpline T) =
          Except.ok c := h
      cases h'
      refine ⟨⟨by simpa using not_le.mp h1, ?_, ?_⟩, rfl, rfl⟩
      · simp [List.length_mergeSort, hlen, h2]
      · exact List.sorted_mergeSort' _
  · simp [new, if_neg h1, h2] at h

/-- Witness for C7 on the linear curve. -/
theorem new_invariant_witness :
    new 1 [(0 : ℚ), 1] [some 0, some 0, some 1, some 1] =
      .ok ⟨1, [(0 : ℚ), 1], [0, 0, 1, 1]⟩ ∧
    (Invariant (⟨1, [(0 : ℚ), 1], [0, 0, 1, 1]⟩ : BSpline ℚ) ∧
      (⟨1, [(0 : ℚ), 1], [0, 0, 1, 1]⟩ : BSpline ℚ).degree = 1 ∧
      control_points_seq (⟨1, [(0 : ℚ), 1], [0, 0, 1, 1]⟩ : BSpline ℚ) =
        [(0 : ℚ), 1]) := by
  have hms : ([0, 0, 1, 1] : List ℚ).mergeSort (fun a b => a ≤ b) =
      [0, 0, 1, 1] := List.mergeSort_eq_self (by decide)
  have hnew : new 1 [(0 : ℚ), 1] [some 0, some 0, some 1, some 1] =
      .ok ⟨1, [(0 : ℚ), 1], [0, 0, 1, 1]⟩ := by
    have hck : checkComparable [some (0 : ℚ), some 0, some 1, some 1] =
        some [0, 0, 1, 1] := rfl
    have hsk : sortKnots [some (0 : ℚ), some 0, some 1, some 1] =
        .ok [0, 0, 1, 1] := by
      simp [sortKnots, hck, hms]
    simp only [new, hsk]
    rfl
  exact ⟨hnew, new_invariant 1 [(0 : ℚ), 1] [some 0, some 0, some 1, some 1]
    ⟨1, [(0 : ℚ), 1], [0, 0, 1, 1]⟩ hnew⟩

/-- The linear sample curve: degree 1, control points `[0, 1]`,
knots `[0, 0, 1, 1]` (the `linear_bspline` test of the library). -/
def linCurve : BSpline ℚ :=
  ⟨1, [0, 1], [0, 0, 1, 1]⟩

/-! ### C8: the knot-domain query -/

/-- C8: for every curve satisfying the construction invariants,
`knot_domain` returns exactly `(knots[degree], knots[knots.len()-1-degree])`
and both indices are in range, so the query cannot fail; it is a pure
function of the (immutable) curve value, so its result never changes after
construction. -/
theorem knot_domain_spec {T : Type} (c : BSpline T) (h : Invariant c) :
    ∃ (h1 : c.degree < c.knots.length)
      (h2 : c.knots.length - 1 - c.degree < c.knots.length),
      knot_domain c = (c.knots.get ⟨c.degree, h1⟩,
        c.knots.get ⟨c.knots.length - 1 - c.degree, h2⟩) := by
  obtain ⟨hd, hl, _⟩ := h
  have h1 : c.degree < c.knots.length := by omega
  have h2 : c.knots.length - 1 - c.degree < c.knots.length := by omega
  refine ⟨h1, h2, ?_⟩
  unfold knot_domain
  rw [List.getD_eq_getElem _ _ h1, List.getD_eq_getElem _ _ h2]
  rfl

/-- Witness for C8 on the linear sample curve. -/
theorem knot_domain_spec_witness :
    Invariant linCurve ∧
    ∃ (h1 : linCurve.degree < linCurve.knots.length)
      (h2 : linCurve.knots.length - 1 - linCurve.degree <
        linCurve.knots.length),
      knot_domain linCurve = (linCurve.knots.get ⟨linCurve.degree, h1⟩,
        linCurve.knots.get
          ⟨linCurve.knots.length - 1 - linCurve.degree, h2⟩) :=
  ⟨by decide, knot_domain_spec linCurve (by decide)⟩

/-! ### C4: out-of-domain evaluation fails loudly -/

/-- C4: for every constructed curve and every `t` strictly outside the
inclusive knot domain, `point` fails with `ParameterOutOfDomain` (the
`debug_assert` at `lib.rs:111`) instead of returning a value. -/
theorem point_out_of_domain {T : Type} [Interpolate T] (c : BSpline T)
    (t : ℚ) (hc : Invariant c)
    (h : t < (knot_domain c).1 ∨ (knot_domain c).2 < t) :
    point c t = .error .ParameterOutOfDomain := by
  unfold point
  rcases h with h | h
  · rw [if_neg (fun hh => absurd hh.1 (not_le.mpr h))]
  · rw [if_neg (fun hh => absurd hh.2 (not_le.mpr h))]

/-- Witness for C4 on the linear sample curve at `t = 2`. -/
theorem point_out_of_domain_witness :
    (Invariant linCurve ∧
      ((2 : ℚ) < (knot_domain linCurve).1 ∨ (knot_domain linCurve).2 < 2)) ∧
    point linCurve 2 = .error .ParameterOutOfDomain :=
  ⟨⟨by decide, by decide⟩,
    point_out_of_domain linCurve 2 (by decide) (by decide)⟩

/-! ### C2: the four-case knot-span selection policy -/

/-- C2: for every curve and every `t` in the knot domain, `point` hands
de Boor the span index chosen by the four-case policy on the upper-bound
search result: not-found or a found index `≥ knots.len() - degree - 1` clamp
to `knots.len() - degree - 1`, a found index `0` clamps to `degree`, and any
other found index is used as is. -/
theorem point_span_policy {T : Type} [Interpolate T] (c : BSpline T) (t : ℚ)
    (h1 : (knot_domain c).1 ≤ t) (h2 : t ≤ (knot_domain c).2) :
    (upper_bounds c.knots t = none →
      point c t = de_boor_iterative c t (c.knots.length - c.degree - 1)) ∧
    (upper_bounds c.knots t = some 0 →
      point c t = de_boor_iterative c t c.degree) ∧
    (∀ x, upper_bounds c.knots t = some x → x ≠ 0 →
      c.knots.length - c.degree - 1 ≤ x →
      point c t = de_boor_iterative c t (c.knots.length - c.degree - 1)) ∧
    (∀ x, upper_bounds c.knots t = some x → x ≠ 0 →
      x < c.knots.length - c.degree - 1 →
      point c t = de_boor_iterative c t x) := by
  have hpt : point c t =
      de_boor_iterative c t (spanIndex c.knots c.degree t) := by
    simp only [point, if_pos (And.intro h1 h2)]
  refine ⟨fun hub => ?_, fun hub => ?_,
    fun x hub hx0 hxc => ?_, fun x hub hx0 hxc => ?_⟩
  · rw [hpt]
    unfold spanIndex
    rw [hub]
  · rw [hpt]
    unfold spanIndex
    rw [hub]
    simp
  · rw [hpt]
    unfold spanIndex
    rw [hub]
    simp [hx0, hxc]
  · rw [hpt]
    unfold spanIndex
    rw [hub]
    simp [hx0, not_le.mpr hxc]

/-- Witness for C2 on the linear sample curve at `t = 0` (the search finds
index 2 = `knots.len() - degree - 1`, exercising the clamp case). -/
theorem point_span_policy_witness :
    ((knot_domain linCurve).1 ≤ (0 : ℚ) ∧
      (0 : ℚ) ≤ (knot_domain linCurve).2) ∧
    ((upper_bounds linCurve.knots 0 = none →
      point linCurve 0 =
        de_boor_iterative linCurve 0
          (linCurve.knots.length - linCurve.degree - 1)) ∧
    (upper_bounds linCurve.knots 0 = some 0 →
      point linCurve 0 =
        de_boor_iterative linCurve 0 linCurve.degree) ∧
    (∀ x, upper_bounds linCurve.knots 0 = some x → x ≠ 0 →
      linCurve.knots.length - linCurve.degree - 1 ≤ x →
      point linCurve 0 =
        de_boor_iterative linCurve 0
          (linCurve.knots.length - linCurve.degree - 1)) ∧
    (∀ x, upper_bounds linCurve.knots 0 = some x → x ≠ 0 →
      x < linCurve.knots.length - linCurve.degree - 1 →
      point linCurve 0 = de_boor_iterative linCurve 0 x)) :=
  ⟨⟨by decide, by decide⟩,
    point_span_policy linCurve 0 (by decide) (by decide)⟩

/-! ### C1: linear degree-1 exactness -/

lemma bindE_ok {α β : Type} (a : α) (f : α → Except SplineError β) :
    (Except.ok a >>= f) = f a := rfl

lemma bindE_error {α β : Type} (e : SplineError)
    (f : α → Except SplineError β) :
    ((Except.error e : Except SplineError α) >>= f) = Except.error e := rfl

lemma interpolate_rat (a b w : ℚ) :
    Interpolate.interpolate a b w = a * (1 - w) + b * w := rfl

/-- C1: a degree-1 curve on control points `p0, p1` with knots `[0,0,1,1]`
(as built by `new`) evaluates to the straight line
`p0 * (1 - t) + p1 * t` at every `t` in `[0, 1]`. -/
theorem linear_point_exact (p0 p1 t : ℚ) (h0 : 0 ≤ t) (h1 : t ≤ 1) :
    new 1 [p0, p1] [some 0, some 0, some 1, some 1] =
      .ok ⟨1, [p0, p1], [0, 0, 1, 1]⟩ ∧
    point ⟨1, [p0, p1], [0, 0, 1, 1]⟩ t = .ok (p0 * (1 - t) + p1 * t) := by
  constructor
  · have hck : checkComparable [some (0 : ℚ), some 0, some 1, some 1] =
        some [0, 0, 1, 1] := rfl
    have hms : ([0, 0, 1, 1] : List ℚ).mergeSort (fun a b => a ≤ b) =
        [0, 0, 1, 1] := List.mergeSort_eq_self (by decide)
    have hsk : sortKnots [some (0 : ℚ), some 0, some 1, some 1] =
        .ok [0, 0, 1, 1] := by
      simp [sortKnots, hck, hms]
    simp only [new, hsk]
    rfl
  · have hdom : knot_domain (⟨1, [p0, p1], [0, 0, 1, 1]⟩ : BSpline ℚ) =
        (0, 1) := rfl
    have hspan : spanIndex [0, 0, 1, 1] 1 t = 2 := by
      rcases lt_or_le t 1 with ht | ht
      · have hloop : upperBoundsLoop [0, 0, 1, 1] t 0 4 = 2 := by
          rw [upperBoundsLoop]
          norm_num
          rw [if_neg (not_le.mpr ht)]
          rw [upperBoundsLoop]
          norm_num
          rw [if_pos h0, upperBoundsLoop]
          norm_num
        simp [spanIndex, upper_bounds, hloop]
      · have hloop : upperBoundsLoop [0, 0, 1, 1] t 0 4 = 4 := by
          rw [upperBoundsLoop]
          norm_num
          rw [if_pos ht, upperBoundsLoop]
          norm_num
          rw [if_pos ht, upperBoundsLoop]
          norm_num
        simp [spanIndex, upper_bounds, hloop]
    have hrow : rowBlend [0, 0, 1, 1] t 1 1 2 1 0 [p0, p1] =
        .ok [Interpolate.interpolate p0 p1 t, p1] := by
      simp only [rowBlend, subE, idxE]
      norm_num [bindE_ok]
    have hlev : de_boor_levels [0, 0, 1, 1] t 1 2 0 [p0, p1] =
        .ok [Interpolate.interpolate p0 p1 t, p1] := by
      rw [de_boor_levels.eq_def]
      norm_num [hrow, bindE_ok]
      rw [de_boor_levels.eq_def]
      norm_num
    have hseed : de_boor_seed [p0, p1] 1 2 = .ok [p0, p1] := rfl
    have hdb : de_boor_iterative (⟨1, [p0, p1], [0, 0, 1, 1]⟩ : BSpline ℚ) t 2 =
        .ok (p0 * (1 - t) + p1 * t) := by
      simp only [de_boor_iterative, hseed, bindE_ok, hlev, idxE]
      norm_num [interpolate_rat]
    simp only [point, hdom]
    rw [if_pos (⟨h0, h1⟩ : (0 : ℚ) ≤ t ∧ t ≤ 1)]
    show de_boor_iterative (⟨1, [p0, p1], [0, 0, 1, 1]⟩ : BSpline ℚ) t
      (spanIndex [0, 0, 1, 1] 1 t) = _
    rw [hspan, hdb]
/-- Witness for C1 at `p0 = 2`, `p1 = 5`, `t = 1`. -/
theorem linear_point_exact_witness :
    ((0 : ℚ) ≤ 1 ∧ (1 : ℚ) ≤ 1) ∧
    (new 1 [(2 : ℚ), 5] [some 0, some 0, some 1, some 1] =
      .ok ⟨1, [(2 : ℚ), 5], [0, 0, 1, 1]⟩ ∧
    point ⟨1, [(2 : ℚ), 5], [0, 0, 1, 1]⟩ 1 =
      .ok (2 * (1 - 1) + 5 * 1)) :=
  ⟨⟨by decide, by decide⟩,
    linear_point_exact 2 5 1 (by decide) (by decide)⟩

/-! ### Bounds of the selected knot span -/

/-- Under the construction invariants and `t` at or above the lower domain
boundary, the span index handed to de Boor lies in
`[degree + 1, control_points.len()]`, and the upper-bound search can never
return index 0. -/
lemma spanIndex_bounds {T : Type} (c : BSpline T) (t : ℚ)
    (hinv : Invariant c) (hlo : (knot_domain c).1 ≤ t) :
    c.degree + 1 ≤ spanIndex c.knots c.degree t ∧
    spanIndex c.knots c.degree t ≤ c.control_points.length ∧
    (∀ x, upper_bounds c.knots t = some x → x ≠ 0) := by
  obtain ⟨hd, hn, hs⟩ := hinv
  have hdlen : c.degree < c.knots.length := by omega
  have hdomlo : c.knots.getD c.degree 0 ≤ t := hlo
  have hxlarge : ∀ x, upper_bounds c.knots t = some x → c.degree + 1 ≤ x := by
    intro x hub
    obtain ⟨hxlt, hvx, _⟩ := (upper_bounds_spec c.knots t hs).2 x hub
    by_contra hcon
    have hxd : x ≤ c.degree := by omega
    exact absurd (le_trans (sorted_getD_mono hs hxd hdlen) hdomlo)
      (not_le.mpr hvx)
  rcases hub : upper_bounds c.knots t with _ | x
  · simp only [spanIndex, hub]
    exact ⟨by omega, by omega, fun x hx => Option.noConfusion hx⟩
  · have hx1 : c.degree + 1 ≤ x := hxlarge x hub
    have hne0 : ∀ y, some x = some y → y ≠ 0 := by
      intro y hy
      obtain rfl := Option.some.inj hy
      omega
    simp only [spanIndex, hub]
    rw [if_neg (by omega : ¬ x = 0)]
    by_cases hclamp : c.knots.length - c.degree - 1 ≤ x
    · rw [if_pos hclamp]
      exact ⟨by omega, by omega, hne0⟩
    · rw [if_neg hclamp]
      exact ⟨hx1, by omega, hne0⟩

/-! ### The de Boor seed succeeds in bounds -/

lemma seedLoop_ok {T : Type} (cps : List T) (degree i_start : ℕ)
    (hge : degree + 1 ≤ i_start) (hle : i_start ≤ cps.length) :
    ∀ n j, j + n ≤ degree + 1 →
      ∃ l, seedLoop cps degree i_start j n = .ok l ∧ l.length = n := by
  intro n
  induction n with
  | zero => exact fun j _ => ⟨[], rfl, rfl⟩
  | succ n ih =>
    intro j hj
    obtain ⟨l, hl, hlen⟩ := ih (j + 1) (by omega)
    have hp : j + i_start - (degree + 1) < cps.length := by omega
    refine ⟨cps.get ⟨j + i_start - (degree + 1), hp⟩ :: l, ?_, by simp [hlen]⟩
    simp only [seedLoop, subE, if_pos (by omega : degree + 1 ≤ j + i_start),
      bindE_ok, idxE, List.getElem?_eq_getElem hp]
    rw [hl]
    rfl

lemma de_boor_seed_ok {T : Type} (cps : List T) (degree i_start : ℕ)
    (hge : degree + 1 ≤ i_start) (hle : i_start ≤ cps.length) :
    ∃ l, de_boor_seed cps degree i_start = .ok l ∧ l.length = degree + 1 :=
  seedLoop_ok cps degree i_start hge hle (degree + 1) 0 (by omega)

/-! ### Characterization of one de Boor level -/

/-- With the span index in bounds, one level of `cnt` blends starting at
position `j` fails with `DegenerateKnotSpan` exactly when one of its blend
denominators is zero, and otherwise succeeds preserving the buffer length. -/
lemma rowBlend_spec {T : Type} [Interpolate T] (knots : List ℚ) (t : ℚ)
    (d k i_start : ℕ) (hki : d + 1 ≤ i_start)
    (hn : i_start + d < knots.length) :
    ∀ cnt j (tmp : List T), j + cnt + k ≤ d + 1 → cnt < tmp.length →
      (rowBlend knots t d k i_start cnt j tmp = .error .DegenerateKnotSpan ↔
        ∃ m, m < cnt ∧ blendDenom knots d k i_start (j + m) = 0) ∧
      ((¬ ∃ m, m < cnt ∧ blendDenom knots d k i_start (j + m) = 0) →
        ∃ tmp', rowBlend knots t d k i_start cnt j tmp = .ok tmp' ∧
          tmp'.length = tmp.length) := by
  intro cnt
  induction cnt with
  | zero =>
    intro j tmp hj htmp
    refine ⟨⟨fun h => Except.noConfusion h, ?_⟩, fun _ => ⟨tmp, rfl, rfl⟩⟩
    rintro ⟨m, hm, _⟩
    omega
  | succ cnt ih =>
    intro j tmp hj htmp
    match tmp with
    | [] => simp at htmp
    | [a] =>
      simp only [List.length_singleton] at htmp
      omega
    | a :: b :: rest =>
      have hsub1 : subE (j + k + i_start) d = .ok (j + k + i_start - d) := by
        simp [subE, if_pos (by omega : d ≤ j + k + i_start)]
      have hi1 : 1 ≤ j + k + i_start - d := by omega
      have hsub2 : subE (j + k + i_start - d) 1 =
          .ok (j + k + i_start - d - 1) := by
        simp [subE, if_pos hi1]
      have him : j + k + i_start - d - 1 < knots.length := by omega
      have hhib : j + k + i_start - d + d - k < knots.length := by omega
      have hlo : idxE knots (j + k + i_start - d - 1) =
          .ok (knots.getD (j + k + i_start - d - 1) 0) := by
        simp [idxE, List.getElem?_eq_getElem him, List.getD_eq_getElem _ _ him]
      have hhi : idxE knots (j + k + i_start - d + d - k) =
          .ok (knots.getD (j + k + i_start - d + d - k) 0) := by
        simp [idxE, List.getElem?_eq_getElem hhib,
          List.getD_eq_getElem _ _ hhib]
      have hdenom : knots.getD (j + k + i_start - d + d - k) 0 -
          knots.getD (j + k + i_start - d - 1) 0 =
          blendDenom knots d k i_start j := rfl
      simp only [rowBlend, hsub1, bindE_ok, hsub2, hlo, hhi, hdenom]
      by_cases hz : blendDenom knots d k i_start j = 0
      · rw [if_pos hz]
        refine ⟨⟨fun _ => ⟨0, by omega, by simpa using hz⟩, fun _ => rfl⟩,
          fun hno => absurd ⟨0, by omega, by simpa using hz⟩ hno⟩
      · rw [if_neg hz]
        have hcnt : cnt < (b :: rest).length := by
          simp only [List.length_cons] at htmp ⊢
          omega
        obtain ⟨ihiff, ihok⟩ := ih (j + 1) (b :: rest) (by omega) hcnt
        by_cases herr :
            ∃ m, m < cnt ∧ blendDenom knots d k i_start (j + 1 + m) = 0
        · have htail := ihiff.mpr herr
          simp only [htail, bindE_error]
          obtain ⟨m, hm, hzz⟩ := herr
          have hsh : j + (m + 1) = j + 1 + m := by omega
          refine ⟨⟨fun _ => ⟨m + 1, by omega, by rwa [hsh]⟩, fun _ => trivial⟩,
            fun hno => absurd ⟨m + 1, by omega, by rwa [hsh]⟩ hno⟩
        · obtain ⟨tmp', htail, hlen'⟩ := ihok herr
          simp only [htail, bindE_ok]
          refine ⟨⟨fun h => Except.noConfusion h, ?_⟩,
            fun _ => ⟨_, rfl, by simp [hlen']⟩⟩
          rintro ⟨m, hm, hzz⟩
          match m with
          | 0 => exact absurd (by simpa using hzz) hz
          | m' + 1 =>
            refine absurd ⟨m', by omega, ?_⟩ herr
            rwa [show j + 1 + m' = j + (m' + 1) by omega]

/-- Characterization of the outer level loop: starting at level `lvl` with a
full-size buffer, the loop fails with `DegenerateKnotSpan` exactly when some
remaining level has a zero blend denominator, and otherwise succeeds with a
full-size buffer. -/
lemma de_boor_levels_spec {T : Type} [Interpolate T] (knots : List ℚ)
    (t : ℚ) (d i_start : ℕ) (hki : d + 1 ≤ i_start)
    (hn : i_start + d < knots.length) :
    ∀ fuel lvl (tmp : List T), d - lvl = fuel → tmp.length = d + 1 →
      (de_boor_levels knots t d i_start lvl tmp =
          .error .DegenerateKnotSpan ↔
        ∃ l, lvl ≤ l ∧ l < d ∧
          ∃ m, m < d - l ∧ blendDenom knots d (l + 1) i_start m = 0) ∧
      ((¬ ∃ l, lvl ≤ l ∧ l < d ∧
          ∃ m, m < d - l ∧ blendDenom knots d (l + 1) i_start m = 0) →
        ∃ tmp', de_boor_levels knots t d i_start lvl tmp = .ok tmp' ∧
          tmp'.length = d + 1) := by
  intro fuel
  induction fuel with
  | zero =>
    intro lvl tmp hf hl
    rw [de_boor_levels.eq_def, if_neg (by omega : ¬ lvl < d)]
    refine ⟨⟨fun h => Except.noConfusion h, ?_⟩, fun _ => ⟨tmp, rfl, hl⟩⟩
    rintro ⟨l, hl1, hl2, _⟩
    omega
  | succ fuel ihf =>
    intro lvl tmp hf hl
    have hlvl : lvl < d := by omega
    rw [de_boor_levels.eq_def, if_pos hlvl]
    obtain ⟨riff, rok⟩ := rowBlend_spec knots t d (lvl + 1) i_start hki hn
      (d - lvl) 0 tmp (by omega) (by omega)
    by_cases hrow :
        ∃ m, m < d - lvl ∧ blendDenom knots d (lvl + 1) i_start (0 + m) = 0
    · have herr := riff.mpr hrow
      simp only [herr, bindE_error]
      obtain ⟨m, hm, hz⟩ := hrow
      have hz' : blendDenom knots d (lvl + 1) i_start m = 0 := by
        simpa using hz
      constructor
      · constructor
        · intro _
          exact ⟨lvl, le_refl _, hlvl, m, hm, hz'⟩
        · intro _
          trivial
      · intro hno
        exact absurd ⟨lvl, le_refl _, hlvl, m, hm, hz'⟩ hno
    · obtain ⟨tmp2, hok, hlen2⟩ := rok hrow
      simp only [hok, bindE_ok]
      have hf2 : d - (lvl + 1) = fuel := by
        rw [← Nat.sub_sub, hf]
        exact Nat.add_sub_cancel fuel 1
      have hl2 : tmp2.length = d + 1 := by rw [hlen2, hl]
      obtain ⟨liff, lok⟩ := ihf (lvl + 1) tmp2 hf2 hl2
      constructor
      · rw [liff]
        constructor
        · rintro ⟨l, hl1, hl2, hm⟩
          exact ⟨l, by omega, hl2, hm⟩
        · rintro ⟨l, hl1, hl2, m, hm, hz⟩
          rcases Nat.eq_or_lt_of_le hl1 with rfl | hlt
          · exact absurd ⟨m, hm, by simpa using hz⟩ hrow
          · exact ⟨l, by omega, hl2, m, hm, hz⟩
      · intro hno
        apply lok
        rintro ⟨l, hl1, hl2, hm⟩
        exact hno ⟨l, by omega, hl2, hm⟩

lemma hasDegenerateSpan_iff (knots : List ℚ) (d i_start : ℕ) :
    hasDegenerateSpan knots d i_start = true ↔
    ∃ l, 0 ≤ l ∧ l < d ∧ ∃ m, m < d - l ∧
      blendDenom knots d (l + 1) i_start m = 0 := by
  unfold hasDegenerateSpan
  rw [List.any_eq_true]
  constructor
  · rintro ⟨lvl, hmem, hany⟩
    rw [List.any_eq_true] at hany
    obtain ⟨m, hmm, hz⟩ := hany
    exact ⟨lvl, Nat.zero_le _, List.mem_range.mp hmem, m,
      List.mem_range.mp hmm, of_decide_eq_true hz⟩
  · rintro ⟨l, _, hld, m, hmd, hz⟩
    exact ⟨l, List.mem_range.mpr hld,
      List.any_eq_true.mpr ⟨m, List.mem_range.mpr hmd, decide_eq_true hz⟩⟩

/-- Under the invariants and an in-domain parameter, `point` fails with
`DegenerateKnotSpan` exactly when some blend denominator of the selected
span is zero, and succeeds otherwise. -/
lemma point_cases {T : Type} [Interpolate T] (c : BSpline T) (t : ℚ)
    (hinv : Invariant c) (h1 : (knot_domain c).1 ≤ t)
    (h2 : t ≤ (knot_domain c).2) :
    (point c t = .error .DegenerateKnotSpan ↔
      hasDegenerateSpan c.knots c.degree (spanIndex c.knots c.degree t) =
        true) ∧
    (hasDegenerateSpan c.knots c.degree (spanIndex c.knots c.degree t) =
        false → ∃ v, point c t = .ok v) := by
  obtain ⟨hsl, hsu, _⟩ := spanIndex_bounds c t hinv h1
  obtain ⟨hd, hn, hs⟩ := hinv
  set i_start := spanIndex c.knots c.degree t with his
  have hpt : point c t = de_boor_iterative c t i_start := by
    simp only [point, if_pos (And.intro h1 h2)]
  obtain ⟨tmp, hseed, hseedlen⟩ := de_boor_seed_ok c.control_points c.degree
    i_start hsl hsu
  have hn2 : i_start + c.degree < c.knots.length := by omega
  obtain ⟨liff, lok⟩ := de_boor_levels_spec c.knots t c.degree i_start hsl
    hn2 c.degree 0 tmp rfl hseedlen
  have hdeg := hasDegenerateSpan_iff c.knots c.degree i_start
  rw [hpt]
  simp only [de_boor_iterative, hseed, bindE_ok]
  by_cases hcase : ∃ l, 0 ≤ l ∧ l < c.degree ∧ ∃ m, m < c.degree - l ∧
      blendDenom c.knots c.degree (l + 1) i_start m = 0
  · have herr := liff.mpr hcase
    simp only [herr, bindE_error]
    refine ⟨⟨fun _ => hdeg.mpr hcase, fun _ => trivial⟩, fun hfalse => ?_⟩
    have := hdeg.mpr hcase
    rw [hfalse] at this
    exact Bool.noConfusion this
  · obtain ⟨tmp', hok, hlen'⟩ := lok hcase
    simp only [hok, bindE_ok]
    have h0 : 0 < tmp'.length := by omega
    have hv : idxE tmp' 0 = .ok (tmp'.get ⟨0, h0⟩) := by
      simp [idxE, List.getElem?_eq_getElem h0]
    refine ⟨⟨fun he => ?_, fun htrue => absurd (hdeg.mp htrue) hcase⟩,
      fun _ => ⟨tmp'.get ⟨0, h0⟩, hv⟩⟩
    rw [hv] at he
    exact Except.noConfusion he

/-! ### C6: degenerate knot spans are rejected -/

/-- C6: during an in-domain evaluation on a curve satisfying the invariants,
`point` fails with `DegenerateKnotSpan` exactly when some blend factor of
the run has a zero denominator (the non-finite `alpha` caught by
`debug_assert!(alpha.is_finite())`); when every denominator is nonzero,
every blend factor is a (finite) rational and the evaluation returns a
value. -/
theorem point_degenerate_iff {T : Type} [Interpolate T] (c : BSpline T)
    (t : ℚ) (hinv : Invariant c) (h1 : (knot_domain c).1 ≤ t)
    (h2 : t ≤ (knot_domain c).2) :
    (point c t = .error .DegenerateKnotSpan ↔
      hasDegenerateSpan c.knots c.degree (spanIndex c.knots c.degree t) =
        true) ∧
    (hasDegenerateSpan c.knots c.degree (spanIndex c.knots c.degree t) =
        false → ∃ v, point c t = .ok v) :=
  point_cases c t hinv h1 h2

/-- Witness for C6 on the linear sample curve at `t = 0` (no degenerate
span; the evaluation succeeds). -/
theorem point_degenerate_iff_witness :
    (Invariant linCurve ∧ (knot_domain linCurve).1 ≤ (0 : ℚ) ∧
      (0 : ℚ) ≤ (knot_domain linCurve).2) ∧
    ((point linCurve 0 = .error .DegenerateKnotSpan ↔
      hasDegenerateSpan linCurve.knots linCurve.degree
        (spanIndex linCurve.knots linCurve.degree 0) = true) ∧
    (hasDegenerateSpan linCurve.knots linCurve.degree
        (spanIndex linCurve.knots linCurve.degree 0) = false →
      ∃ v, point linCurve 0 = .ok v)) :=
  ⟨⟨by decide, by decide, by decide⟩,
    point_degenerate_iff linCurve 0 (by decide) (by decide) (by decide)⟩

/-! ### C9: in-domain evaluation is memory-safe -/

/-- C9: on a curve satisfying the invariants and for `t` in the knot domain,
the upper-bound search never returns index 0 (so the `i = degree` seed whose
index `j + i - degree - 1` would underflow at `j = 0` is unreachable), and
`point` never takes the index-error branch that models out-of-bounds
indexing or `usize` underflow (nor the domain-assert branch). -/
theorem point_safe {T : Type} [Interpolate T] (c : BSpline T) (t : ℚ)
    (hinv : Invariant c) (h1 : (knot_domain c).1 ≤ t)
    (h2 : t ≤ (knot_domain c).2) :
    (∀ x, upper_bounds c.knots t = some x → x ≠ 0) ∧
    point c t ≠ .error .IndexOutOfBounds ∧
    point c t ≠ .error .ParameterOutOfDomain := by
  obtain ⟨_, _, hne0⟩ := spanIndex_bounds c t hinv h1
  obtain ⟨hiff, hok⟩ := point_cases c t hinv h1 h2
  have hdisj : point c t = .error .DegenerateKnotSpan ∨
      ∃ v, point c t = .ok v := by
    cases hb : hasDegenerateSpan c.knots c.degree
        (spanIndex c.knots c.degree t) with
    | true => exact Or.inl (hiff.mpr hb)
    | false => exact Or.inr (hok hb)
  refine ⟨hne0, ?_, ?_⟩
  · rcases hdisj with hD | ⟨v, hv⟩
    · rw [hD]
      intro h
      exact SplineError.noConfusion (Except.error.inj h)
    · rw [hv]
      exact fun h => Except.noConfusion h
  · rcases hdisj with hD | ⟨v, hv⟩
    · rw [hD]
      intro h
      exact SplineError.noConfusion (Except.error.inj h)
    · rw [hv]
      exact fun h => Except.noConfusion h

/-- Witness for C9 on the linear sample curve at `t = 0`. -/
theorem point_safe_witness :
    (Invariant linCurve ∧ (knot_domain linCurve).1 ≤ (0 : ℚ) ∧
      (0 : ℚ) ≤ (knot_domain linCurve).2) ∧
    ((∀ x, upper_bounds linCurve.knots 0 = some x → x ≠ 0) ∧
    point linCurve 0 ≠ .error .IndexOutOfBounds ∧
    point linCurve 0 ≠ .error .ParameterOutOfDomain) :=
  ⟨⟨by decide, by decide, by decide⟩,
    point_safe linCurve 0 (by decide) (by decide) (by decide)⟩

end BsplineVerif
